import Mathlib

set_option maxRecDepth 16000

/-!
Verification of the Reversi rules engine of `reversi.py` (class `Board`,
`AIPlayer` with its priority matrices, `Game.play`) and of the function-style
variant `not_use_numpy.py` (`can_flip`, `make_move`, `get_valid_moves`).

A board is modelled as a total function from integer coordinates to the
integer cell content used by the sources (`1` = black, `-1` = white,
`0` = empty).  Every access the sources make is guarded by `is_on_board`,
and all properties below quantify over cells with coordinates in `[0, 8)`.

The ray-walk `while` loops of `get_stones_to_flip` / `can_flip` /
`make_move` are embedded as a bounded iteration count (`run_len`): starting
from an on-board origin, a walk in any of the eight directions leaves the
board after at most 7 steps (step 8 is always off the board), so a fuel of 8
reproduces the loop exactly for every call the sources make.
-/

namespace Reversi

abbrev Board := Int → Int → Int

def BLACK : Int := 1

def WHITE : Int := -1

def EMPTY : Int := 0

/-- The eight scan directions, in source order. -/
def DIRECTIONS : List (Int × Int) :=
  [(0, 1), (1, 0), (0, -1), (-1, 0), (1, 1), (1, -1), (-1, 1), (-1, -1)]

/-- `is_on_board` from `reversi.py` and `not_use_numpy.py`. -/
def is_on_board (row col : Int) : Bool :=
  decide (0 ≤ row ∧ row < 8 ∧ 0 ≤ col ∧ col < 8)

/-- A single assignment `board[row][col] = v`. -/
def setCell (b : Board) (row col v : Int) : Board :=
  fun r c => if r = row ∧ c = col then v else b r c

/-- `create_board`: all cells empty except the four centre stones. -/
def create_board : Board := fun r c =>
  if (r = 3 ∧ c = 3) ∨ (r = 4 ∧ c = 4) then WHITE
  else if (r = 3 ∧ c = 4) ∨ (r = 4 ∧ c = 3) then BLACK
  else EMPTY

/-- Position reached after `k` steps from `(row, col)` in direction
`(d_row, d_col)`. -/
def rayPos (row col d_row d_col : Int) (k : Nat) : Int × Int :=
  (row + (k : Int) * d_row, col + (k : Int) * d_col)

/-- Loop condition of the ray-walk `while` loop at step `k`: the position is
on the board and holds an opponent stone. -/
def ray_ok (b : Board) (opponent row col d_row d_col : Int) (k : Nat) : Bool :=
  is_on_board (rayPos row col d_row d_col k).1 (rayPos row col d_row d_col k).2 &&
    (b (rayPos row col d_row d_col k).1 (rayPos row col d_row d_col k).2 == opponent)

/-- Number of iterations performed by the ray-walk `while` loop, starting at
step `k`, with the given fuel. -/
def run_len_aux (b : Board) (opponent row col d_row d_col : Int) : Nat → Nat → Nat
  | 0, _ => 0
  | fuel + 1, k =>
      if ray_ok b opponent row col d_row d_col k then
        run_len_aux b opponent row col d_row d_col fuel (k + 1) + 1
      else 0

/-- Number of iterations of the ray-walk loop from step 1 (fuel 8 is exact
for on-board origins, see the header comment). -/
def run_len (b : Board) (opponent row col d_row d_col : Int) : Nat :=
  run_len_aux b opponent row col d_row d_col 8 1

/-- `temp_flip` / `stones_to_flip` of one direction: the positions collected
by the ray-walk loop, in order. -/
def opp_run (b : Board) (opponent row col d_row d_col : Int) : List (Int × Int) :=
  (List.range (run_len b opponent row col d_row d_col)).map fun i =>
    rayPos row col d_row d_col (i + 1)

/-- The commit test after one direction's walk (shared verbatim by
`reversi.py` line 150 and `not_use_numpy.py` line 53): the walk stopped on an
on-board stone of the mover's colour and collected at least one stone. -/
def dir_ok (b : Board) (row col color : Int) (d : Int × Int) : Bool :=
  is_on_board (rayPos row col d.1 d.2 (run_len b (-color) row col d.1 d.2 + 1)).1
      (rayPos row col d.1 d.2 (run_len b (-color) row col d.1 d.2 + 1)).2 &&
    (b (rayPos row col d.1 d.2 (run_len b (-color) row col d.1 d.2 + 1)).1
        (rayPos row col d.1 d.2 (run_len b (-color) row col d.1 d.2 + 1)).2 == color) &&
    !(opp_run b (-color) row col d.1 d.2).isEmpty

/-- The stones one direction contributes to the flip set. -/
def dir_flips (b : Board) (row col color : Int) (d : Int × Int) : List (Int × Int) :=
  if dir_ok b row col color d then opp_run b (-color) row col d.1 d.2 else []

/-- `Board.get_stones_to_flip` of `reversi.py`: the per-direction
contributions accumulated in direction order. -/
def get_stones_to_flip (b : Board) (row col color : Int) : List (Int × Int) :=
  DIRECTIONS.foldl (fun acc d => acc ++ dir_flips b row col color d) []

/-- `Board.place_and_flip_stones` of `reversi.py`.  Returns the success flag
together with the resulting board.  Note: the source does not check that the
target cell is empty. -/
def place_and_flip_stones (b : Board) (row col color : Int) : Bool × Board :=
  let stones := get_stones_to_flip b row col color
  if stones.isEmpty then (false, b)
  else (true, stones.foldl (fun acc p => setCell acc p.1 p.2 color) (setCell b row col color))

/-- `Board.can_flip` of `reversi.py`: empty cell with a non-empty flip set. -/
def can_flip (b : Board) (row col color : Int) : Bool :=
  if !(b row col == EMPTY) then false
  else decide (0 < (get_stones_to_flip b row col color).length)

/-- `Board.find_valid_positions` of `reversi.py`: row-major double loop
collecting the cells where `can_flip` holds. -/
def find_valid_positions (b : Board) (color : Int) : List (Int × Int) :=
  (List.range 8).foldl (fun acc (row : Nat) =>
    (List.range 8).foldl (fun acc2 (col : Nat) =>
      if can_flip b (row : Int) (col : Int) color then acc2 ++ [((row : Int), (col : Int))]
      else acc2) acc) []

/-- `can_flip` of `not_use_numpy.py`: empty cell and some direction passes
the commit test. -/
def nu_can_flip (b : Board) (x y color : Int) : Bool :=
  if !(b x y == EMPTY) then false
  else DIRECTIONS.any fun d => dir_ok b x y color d

/-- The body of `make_move`'s direction loop (`not_use_numpy.py` lines
65-74): re-walk the ray on the current (partially mutated) board and flip the
collected stones if the walk stopped on a stone of the mover's colour.  The
source omits the non-empty test here; flipping an empty list is a no-op. -/
def mm_step (x y color : Int) (acc : Board) (d : Int × Int) : Board :=
  if is_on_board (rayPos x y d.1 d.2 (run_len acc (-color) x y d.1 d.2 + 1)).1
        (rayPos x y d.1 d.2 (run_len acc (-color) x y d.1 d.2 + 1)).2 &&
      (acc (rayPos x y d.1 d.2 (run_len acc (-color) x y d.1 d.2 + 1)).1
          (rayPos x y d.1 d.2 (run_len acc (-color) x y d.1 d.2 + 1)).2 == color) then
    (opp_run acc (-color) x y d.1 d.2).foldl (fun a p => setCell a p.1 p.2 color) acc
  else acc

/-- `make_move` of `not_use_numpy.py` (identical in the unnamed
`main copy.py` variant): check `can_flip`, place the stone, then flip
direction by direction on the mutated board. -/
def make_move (b : Board) (x y color : Int) : Bool × Board :=
  if !nu_can_flip b x y color then (false, b)
  else (true, DIRECTIONS.foldl (mm_step x y color) (setCell b x y color))

/-- `get_valid_moves` of `not_use_numpy.py`: the row-major comprehension of
cells where its `can_flip` holds. -/
def get_valid_moves (b : Board) (color : Int) : List (Int × Int) :=
  (List.range 8).flatMap fun (x : Nat) => (List.range 8).flatMap fun (y : Nat) =>
    if nu_can_flip b (x : Int) (y : Int) color then [((x : Int), (y : Int))] else []

/-- One iteration of `AIPlayer.get_valid_positions`' priority loop:
a strictly higher priority resets the tie list, an equal one appends. -/
def ai_step (pm : Int → Int → Int) (st : List (Int × Int) × Int) (pos : Int × Int) :
    List (Int × Int) × Int :=
  let priority := pm pos.1 pos.2
  if st.2 < priority then ([pos], priority)
  else if priority = st.2 then (st.1 ++ [pos], st.2)
  else st

/-- The tie set (`best_positions`) computed by `AIPlayer.get_valid_positions`,
starting from an empty list and highest priority `-1`. -/
def ai_select (pm : Int → Int → Int) (valid : List (Int × Int)) : List (Int × Int) :=
  (valid.foldl (ai_step pm) ([], -1)).1

/-- `AIPlayer.get_valid_positions` of `reversi.py`.  `pm` is the player's
`priority_matrix` lookup and `pick` models `random.choice`.  Besides
returning the chosen cell, the method itself calls
`board.place_and_flip_stones`; the mutated board is the second component. -/
def ai_get_valid_positions (pm : Int → Int → Int) (pick : List (Int × Int) → Int × Int)
    (color : Int) (b : Board) : Option (Int × Int) × Board :=
  let valid := find_valid_positions b color
  if valid.isEmpty then (none, b)
  else
    let best_position := pick (ai_select pm valid)
    (some best_position,
      (place_and_flip_stones b best_position.1 best_position.2 color).2)

/-- A concrete admissible tie-break: take the first element. -/
def pick_first (l : List (Int × Int)) : Int × Int := l.headD (0, 0)

/-- `EasyAIPlayer.priority_matrix`. -/
def easy_priority_matrix : List (List Int) :=
  [[0, 0, 0, 0, 0, 0, 0, 0],
   [0, 1, 1, 1, 1, 1, 1, 0],
   [0, 1, 1, 1, 1, 1, 1, 0],
   [0, 1, 1, 1, 1, 1, 1, 0],
   [0, 1, 1, 1, 1, 1, 1, 0],
   [0, 1, 1, 1, 1, 1, 1, 0],
   [0, 1, 1, 1, 1, 1, 1, 0],
   [0, 0, 0, 0, 0, 0, 0, 0]]

/-- `HardAIPlayer.priority_matrix`. -/
def hard_priority_matrix : List (List Int) :=
  [[9, 1, 5, 5, 5, 5, 1, 9],
   [1, 0, 3, 3, 3, 3, 0, 1],
   [5, 3, 4, 4, 4, 4, 3, 5],
   [5, 3, 4, 4, 4, 4, 3, 5],
   [5, 3, 4, 4, 4, 4, 3, 5],
   [5, 3, 4, 4, 4, 4, 3, 5],
   [1, 0, 3, 3, 3, 3, 0, 1],
   [9, 1, 5, 5, 5, 5, 1, 9]]

/-- `priority_matrix[row][col]` for cells with coordinates in `[0, 8)`
(the only indices the sources use). -/
def matrix_at (m : List (List Int)) (row col : Int) : Int :=
  (m.getD row.toNat []).getD col.toNat 0

/-- `Game.switch_turn`: `WHITE if current == BLACK else BLACK`. -/
def switch_color (c : Int) : Int := if c = BLACK then WHITE else BLACK

/-- The forced-pass branch of `Game.play` (lines 408-414) for AI players:
after the active colour's `get_valid_positions` returned `(None, None)`,
the engine switches turn and calls the opponent's `get_valid_positions` as
its double-pass check.  First component `true` means the game ends (break);
the second component is the board after the branch. -/
def play_pass_branch (pm : Int → Int → Int) (pick : List (Int × Int) → Int × Int)
    (c : Int) (b : Board) : Bool × Board :=
  match ai_get_valid_positions pm pick (switch_color c) b with
  | (none, b2) => (true, b2)
  | (some _, b2) => (false, b2)

/-- All 64 board cells in row-major order (row, then column). -/
def all_cells : List (Int × Int) :=
  (List.range 8).flatMap fun (r : Nat) => (List.range 8).map fun (c : Nat) =>
    ((r : Int), (c : Int))

/-- Number of cells holding value `v`, the counting used by `show_result`
(`np.sum(board == v)`) restricted to the 64 board cells. -/
def count_color (b : Board) (v : Int) : Nat :=
  all_cells.countP fun p => b p.1 p.2 == v

/-- Boards reachable from the initial board through the single
place-and-flip operation, invoked with a player colour on a board cell
(the only way the engine calls it). -/
inductive Reachable : Board → Prop where
  | init : Reachable create_board
  | step (b : Board) (row col color : Int) :
      Reachable b → (color = BLACK ∨ color = WHITE) →
      0 ≤ row → row < 8 → 0 ≤ col → col < 8 →
      Reachable (place_and_flip_stones b row col color).2

/-- Every board cell holds black, white or empty. -/
def well_formed (b : Board) : Prop :=
  ∀ p ∈ all_cells, b p.1 p.2 = BLACK ∨ b p.1 p.2 = WHITE ∨ b p.1 p.2 = EMPTY

/-- Legality as the specification words it: some direction has a non-empty
contiguous run of opponent-coloured cells starting adjacent to the cell, all
on the board, terminated by a cell of the mover's colour that is still on
the board (so the run ends before going out of bounds or reaching a cell
that is not the opponent's). -/
def LegalitySpec (b : Board) (row col color : Int) : Prop :=
  ∃ d ∈ DIRECTIONS, ∃ n : Nat, 1 ≤ n ∧
    (∀ k : Nat, 1 ≤ k → k ≤ n →
      is_on_board (rayPos row col d.1 d.2 k).1 (rayPos row col d.1 d.2 k).2 = true ∧
      b (rayPos row col d.1 d.2 k).1 (rayPos row col d.1 d.2 k).2 = -color) ∧
    is_on_board (rayPos row col d.1 d.2 (n + 1)).1 (rayPos row col d.1 d.2 (n + 1)).2 = true ∧
    b (rayPos row col d.1 d.2 (n + 1)).1 (rayPos row col d.1 d.2 (n + 1)).2 = color

/-- A board on which `(0,0)` is occupied by black yet has a non-empty flip
set for black: black, white, black in the top row. -/
def bC2 : Board :=
  setCell (setCell (setCell (fun _ _ => EMPTY) 0 0 BLACK) 0 1 WHITE) 0 2 BLACK

/-- Board after the legal opening black `(2,3)` (flips `(3,3)`); the
`setCell` chain spells out exactly what the place-and-flip operation does,
tied to it by `rfl` in the claim-C4 theorem. -/
def bPass1 : Board := setCell (setCell create_board 2 3 BLACK) 3 3 BLACK

/-- Board after the further legal white `(2,2)` (flips `(3,3)`). -/
def bPass2 : Board := setCell (setCell bPass1 2 2 WHITE) 3 3 WHITE

/-- Board after the further legal black `(2,1)` (flips `(2,2)`). -/
def bPass3 : Board := setCell (setCell bPass2 2 1 BLACK) 2 2 BLACK

/-- Board after the further legal white `(1,1)` (flips `(2,2)`). -/
def bPass4 : Board := setCell (setCell bPass3 1 1 WHITE) 2 2 WHITE

/-- Board after the further legal black `(4,5)` (flips `(4,4)`). -/
def bPass5 : Board := setCell (setCell bPass4 4 5 BLACK) 4 4 BLACK

/-- Board after the further legal white `(2,0)` (flips `(2,1)`). -/
def bPass6 : Board := setCell (setCell bPass5 2 0 WHITE) 2 1 WHITE

/-- Board after the further legal black `(0,0)` (flips `(1,1)`, `(2,2)`,
`(3,3)`). -/
def bPass7 : Board :=
  setCell (setCell (setCell (setCell bPass6 0 0 BLACK) 1 1 BLACK) 2 2 BLACK) 3 3 BLACK

/-- Board after the further legal white `(0,2)` (flips `(1,1)`): a position
reachable by eight legal alternating moves from the initial board, in which
black (to move) has no legal move while white has two. -/
def bPass8 : Board := setCell (setCell bPass7 0 2 WHITE) 1 1 WHITE

/-- The four corner cells of the hard AI priority matrix. -/
def corner_cells : List (Int × Int) := [(0, 0), (0, 7), (7, 0), (7, 7)]

/-- The cells adjacent to a corner. -/
def corner_adjacent_cells : List (Int × Int) :=
  [(0, 1), (1, 0), (1, 1), (0, 6), (1, 6), (1, 7),
   (6, 0), (7, 1), (6, 1), (6, 6), (6, 7), (7, 6)]

/-- Interior cells: not on the border and not adjacent to a corner. -/
def interior_cells : List (Int × Int) :=
  all_cells.filter fun p =>
    decide (1 ≤ p.1) && decide (p.1 ≤ 6) && decide (1 ≤ p.2) && decide (p.2 ≤ 6) &&
      !(corner_adjacent_cells.contains p)

/-- The ordering asserted for the hard AI matrix: every corner strictly
above every corner-adjacent cell, and every corner-adjacent cell strictly
above every interior cell. -/
def c10_ordering : Prop :=
  (∀ co ∈ corner_cells, ∀ a ∈ corner_adjacent_cells,
      matrix_at hard_priority_matrix a.1 a.2 < matrix_at hard_priority_matrix co.1 co.2) ∧
  (∀ a ∈ corner_adjacent_cells, ∀ i ∈ interior_cells,
      matrix_at hard_priority_matrix i.1 i.2 < matrix_at hard_priority_matrix a.1 a.2)

/-! ### Generic list lemmas -/

theorem foldl_append_flatten {α β : Type} (l : List α) (f : α → List β) :
    ∀ a : List β, l.foldl (fun acc x => acc ++ f x) a = a ++ (l.map f).flatten := by
  induction l with
  | nil => intro a; simp
  | cons x xs ih => intro a; simp [ih]

theorem foldl_guard_append {α β : Type} (l : List α) (p : α → Bool) (g : α → β) :
    ∀ a : List β,
      l.foldl (fun acc x => if p x then acc ++ [g x] else acc) a =
        a ++ (l.filter p).map g := by
  induction l with
  | nil => intro a; simp
  | cons x xs ih =>
      intro a
      by_cases h : p x = true
      · simp [h, ih]
      · simp [h, ih, List.filter_cons]

theorem flatten_guard_singleton {α β : Type} (l : List α) (p : α → Bool) (g : α → β) :
    ((l.map fun x => if p x then [g x] else []).flatten) = (l.filter p).map g := by
  induction l with
  | nil => simp
  | cons x xs ih =>
      by_cases h : p x = true
      · simp [h, ih]
      · simp [h, ih, List.filter_cons]

theorem filter_flatten {α : Type} (p : α → Bool) (L : List (List α)) :
    L.flatten.filter p = (L.map fun l => l.filter p).flatten := by
  induction L with
  | nil => simp
  | cons l ls ih => simp [List.filter_append, ih]

theorem filter_over_map {α β : Type} (p : β → Bool) (f : α → β) (l : List α) :
    (l.map f).filter p = (l.filter fun x => p (f x)).map f := by
  induction l with
  | nil => simp
  | cons x xs ih =>
      by_cases h : p (f x) = true
      · simp [h, ih, List.filter_cons]
      · simp [h, ih, List.filter_cons]

theorem countP_lt_of_pointwise {α : Type} (p q : α → Bool) :
    ∀ (l : List α), (∀ a ∈ l, p a = true → q a = true) →
      ∀ a0 ∈ l, p a0 = false → q a0 = true →
        l.countP p < l.countP q := by
  intro l
  induction l with
  | nil => intro _ a0 h0; simp at h0
  | cons x xs ih =>
      intro hmono a0 h0 hp0 hq0
      have hxs : ∀ a ∈ xs, p a = true → q a = true := fun a ha => hmono a (.tail _ ha)
      have hle : xs.countP p ≤ xs.countP q := List.countP_mono_left hxs
      rcases List.mem_cons.mp h0 with rfl | hmem
      · have : xs.countP p < xs.countP q + 1 := by omega
        simpa [List.countP_cons, hp0, hq0] using this
      · have hlt := ih hxs a0 hmem hp0 hq0
        have hx : (if p x then 1 else 0) ≤ (if q x then 1 else 0) := by
          by_cases hpx : p x = true
          · simp [hpx, hmono x (.head _) hpx]
          · simp [hpx]
        simp only [List.countP_cons]
        omega

/-! ### Characterization of the ray-walk loop -/

theorem run_len_aux_le (b : Board) (opponent row col d_row d_col : Int) :
    ∀ fuel k, run_len_aux b opponent row col d_row d_col fuel k ≤ fuel := by
  intro fuel
  induction fuel with
  | zero => intro k; simp [run_len_aux]
  | succ f ih =>
      intro k
      simp only [run_len_aux]
      by_cases h : ray_ok b opponent row col d_row d_col k = true
      · simpa [h] using Nat.succ_le_succ (ih (k + 1))
      · simp [h]

theorem run_len_aux_ok (b : Board) (opponent row col d_row d_col : Int) :
    ∀ fuel k j, j < run_len_aux b opponent row col d_row d_col fuel k →
      ray_ok b opponent row col d_row d_col (k + j) = true := by
  intro fuel
  induction fuel with
  | zero => intro k j h; simp [run_len_aux] at h
  | succ f ih =>
      intro k j h
      simp only [run_len_aux] at h
      by_cases hc : ray_ok b opponent row col d_row d_col k = true
      · simp only [hc, if_true] at h
        cases j with
        | zero => simpa using hc
        | succ i =>
            have hi := ih (k + 1) i (by omega)
            have : k + 1 + i = k + (i + 1) := by omega
            rwa [this] at hi
      · simp [hc] at h

theorem run_len_aux_stop (b : Board) (opponent row col d_row d_col : Int) :
    ∀ fuel k, run_len_aux b opponent row col d_row d_col fuel k < fuel →
      ray_ok b opponent row col d_row d_col
        (k + run_len_aux b opponent row col d_row d_col fuel k) = false := by
  intro fuel
  induction fuel with
  | zero => intro k h; omega
  | succ f ih =>
      intro k h
      by_cases hc : ray_ok b opponent row col d_row d_col k = true
      · simp only [run_len_aux, hc, if_true] at h ⊢
        have := ih (k + 1) (by omega)
        have heq : k + 1 + run_len_aux b opponent row col d_row d_col f (k + 1) =
            k + (run_len_aux b opponent row col d_row d_col f (k + 1) + 1) := by omega
        rwa [heq] at this
      · simp only [run_len_aux, hc, if_false, Nat.add_zero]
        exact Bool.eq_false_iff.mpr hc

theorem run_len_aux_ge (b : Board) (opponent row col d_row d_col : Int) :
    ∀ fuel k m, (∀ j, j < m → ray_ok b opponent row col d_row d_col (k + j) = true) →
      m ≤ fuel → m ≤ run_len_aux b opponent row col d_row d_col fuel k := by
  intro fuel
  induction fuel with
  | zero => intro k m _ h; omega
  | succ f ih =>
      intro k m hall hm
      cases m with
      | zero => exact Nat.zero_le _
      | succ m1 =>
          have h0 : ray_ok b opponent row col d_row d_col k = true := by
            simpa using hall 0 (by omega)
          simp only [run_len_aux, h0, if_true]
          have : m1 ≤ run_len_aux b opponent row col d_row d_col f (k + 1) := by
            refine ih (k + 1) m1 (fun j hj => ?_) (by omega)
            have := hall (j + 1) (by omega)
            have heq : k + (j + 1) = k + 1 + j := by omega
            rwa [heq] at this
          omega

theorem run_len_aux_congr (b1 b2 : Board) (opponent row col d_row d_col : Int) :
    ∀ fuel k, (∀ j, k ≤ j → j < k + fuel →
        b1 (rayPos row col d_row d_col j).1 (rayPos row col d_row d_col j).2 =
          b2 (rayPos row col d_row d_col j).1 (rayPos row col d_row d_col j).2) →
      run_len_aux b1 opponent row col d_row d_col fuel k =
        run_len_aux b2 opponent row col d_row d_col fuel k := by
  intro fuel
  induction fuel with
  | zero => intro k _; simp [run_len_aux]
  | succ f ih =>
      intro k hag
      have hok : ray_ok b1 opponent row col d_row d_col k =
          ray_ok b2 opponent row col d_row d_col k := by
        unfold ray_ok
        rw [hag k (Nat.le_refl k) (by omega)]
      simp only [run_len_aux, hok]
      by_cases hc : ray_ok b2 opponent row col d_row d_col k = true
      · simp only [hc, if_true]
        have := ih (k + 1) (fun j hj1 hj2 => hag j (by omega) (by omega))
        omega
      · simp [hc]

theorem run_len_congr (b1 b2 : Board) (opponent row col d_row d_col : Int)
    (h : ∀ k : Nat, 1 ≤ k → k ≤ 8 →
      b1 (rayPos row col d_row d_col k).1 (rayPos row col d_row d_col k).2 =
        b2 (rayPos row col d_row d_col k).1 (rayPos row col d_row d_col k).2) :
    run_len b1 opponent row col d_row d_col = run_len b2 opponent row col d_row d_col := by
  unfold run_len
  exact run_len_aux_congr b1 b2 opponent row col d_row d_col 8 1
    (fun j hj1 hj2 => h j hj1 (by omega))

theorem run_len_le_eight (b : Board) (opponent row col d_row d_col : Int) :
    run_len b opponent row col d_row d_col ≤ 8 :=
  run_len_aux_le b opponent row col d_row d_col 8 1

theorem run_len_ok (b : Board) (opponent row col d_row d_col : Int) (j : Nat)
    (h : j < run_len b opponent row col d_row d_col) :
    ray_ok b opponent row col d_row d_col (1 + j) = true :=
  run_len_aux_ok b opponent row col d_row d_col 8 1 j h

theorem opp_run_length (b : Board) (opponent row col d_row d_col : Int) :
    (opp_run b opponent row col d_row d_col).length =
      run_len b opponent row col d_row d_col := by
  simp [opp_run]

theorem mem_opp_run (b : Board) (opponent row col d_row d_col : Int) (p : Int × Int) :
    p ∈ opp_run b opponent row col d_row d_col ↔
      ∃ i : Nat, i < run_len b opponent row col d_row d_col ∧
        p = rayPos row col d_row d_col (i + 1) := by
  simp only [opp_run, List.mem_map, List.mem_range]
  constructor
  · rintro ⟨i, hi, rfl⟩; exact ⟨i, hi, rfl⟩
  · rintro ⟨i, hi, rfl⟩; exact ⟨i, hi, rfl⟩

/-! ### Ray geometry: distinct directions trace disjoint rays -/

theorem ray_ne_origin (row col : Int) (d : Int × Int) (hd : d ∈ DIRECTIONS)
    (k : Nat) (hk : 1 ≤ k) : rayPos row col d.1 d.2 k ≠ (row, col) := by
  have hd8 : d = ((0 : Int), (1 : Int)) ∨ d = (1, 0) ∨ d = (0, -1) ∨ d = (-1, 0) ∨
      d = (1, 1) ∨ d = (1, -1) ∨ d = (-1, 1) ∨ d = (-1, -1) := by
    simpa [DIRECTIONS] using hd
  rcases hd8 with rfl | rfl | rfl | rfl | rfl | rfl | rfl | rfl <;>
    · intro h
      have hx := congrArg Prod.fst h
      have hy := congrArg Prod.snd h
      simp only [rayPos] at hx hy
      omega

theorem ray_disjoint (row col : Int) (d1 d2 : Int × Int)
    (h1 : d1 ∈ DIRECTIONS) (h2 : d2 ∈ DIRECTIONS) (hne : d1 ≠ d2)
    (j k : Nat) (hj : 1 ≤ j) (hk : 1 ≤ k) :
    rayPos row col d1.1 d1.2 j ≠ rayPos row col d2.1 d2.2 k := by
  have hd1 : d1 = ((0 : Int), (1 : Int)) ∨ d1 = (1, 0) ∨ d1 = (0, -1) ∨ d1 = (-1, 0) ∨
      d1 = (1, 1) ∨ d1 = (1, -1) ∨ d1 = (-1, 1) ∨ d1 = (-1, -1) := by
    simpa [DIRECTIONS] using h1
  have hd2 : d2 = ((0 : Int), (1 : Int)) ∨ d2 = (1, 0) ∨ d2 = (0, -1) ∨ d2 = (-1, 0) ∨
      d2 = (1, 1) ∨ d2 = (1, -1) ∨ d2 = (-1, 1) ∨ d2 = (-1, -1) := by
    simpa [DIRECTIONS] using h2
  rcases hd1 with rfl | rfl | rfl | rfl | rfl | rfl | rfl | rfl <;>
    rcases hd2 with rfl | rfl | rfl | rfl | rfl | rfl | rfl | rfl <;>
      first
      | exact absurd rfl hne
      | · intro h
          have hx := congrArg Prod.fst h
          have hy := congrArg Prod.snd h
          simp only [rayPos] at hx hy
          omega

/-! ### Pointwise evaluation of the mutating operations -/

theorem setCell_eval (b : Board) (row col v r c : Int) :
    setCell b row col v r c = if r = row ∧ c = col then v else b r c := rfl

theorem foldl_setCell_eval (v : Int) :
    ∀ (t : List (Int × Int)) (b0 : Board) (r c : Int),
      (t.foldl (fun a p => setCell a p.1 p.2 v) b0) r c =
        if (r, c) ∈ t then v else b0 r c := by
  intro t
  induction t with
  | nil => intro b0 r c; simp
  | cons p ts ih =>
      intro b0 r c
      simp only [List.foldl_cons, ih, List.mem_cons]
      by_cases hmem : (r, c) ∈ ts
      · simp [hmem]
      · by_cases hp : (r, c) = p
        · have hpc : r = p.1 ∧ c = p.2 := by
            cases p
            simpa [Prod.ext_iff] using hp
          simp [hmem, hp, setCell, hpc]
        · have hpc : ¬(r = p.1 ∧ c = p.2) := by
            cases p
            simpa [Prod.ext_iff] using hp
          simp [hmem, hp, setCell, hpc]

theorem place_fst (b : Board) (row col color : Int) :
    (place_and_flip_stones b row col color).1 =
      !(get_stones_to_flip b row col color).isEmpty := by
  unfold place_and_flip_stones
  by_cases h : (get_stones_to_flip b row col color).isEmpty = true
  · simp [h]
  · simp [h, Bool.eq_false_iff.mpr h]

theorem place_snd_fail (b : Board) (row col color : Int)
    (h : get_stones_to_flip b row col color = []) :
    (place_and_flip_stones b row col color).2 = b := by
  unfold place_and_flip_stones
  simp [h]

theorem place_snd_eval (b : Board) (row col color : Int)
    (h : get_stones_to_flip b row col color ≠ []) (r c : Int) :
    (place_and_flip_stones b row col color).2 r c =
      if (r, c) ∈ get_stones_to_flip b row col color ∨ (r = row ∧ c = col) then color
      else b r c := by
  unfold place_and_flip_stones
  have hne : (get_stones_to_flip b row col color).isEmpty = false := by
    simpa [List.isEmpty_iff] using h
  simp only [hne, Bool.false_eq_true, if_false]
  rw [foldl_setCell_eval]
  by_cases hmem : (r, c) ∈ get_stones_to_flip b row col color
  · simp [hmem]
  · by_cases horig : r = row ∧ c = col
    · simp [hmem, horig, setCell]
    · simp [hmem, horig, setCell]

/-! ### Flip sets and legality -/

theorem isEmpty_false_iff {α : Type} (l : List α) : l.isEmpty = false ↔ l ≠ [] := by
  cases l <;> simp

theorem get_stones_eq_flatten (b : Board) (row col color : Int) :
    get_stones_to_flip b row col color =
      (DIRECTIONS.map fun d => dir_flips b row col color d).flatten := by
  simpa using foldl_append_flatten DIRECTIONS (fun d => dir_flips b row col color d) []

theorem dir_ok_run_ne (b : Board) (row col color : Int) (d : Int × Int)
    (h : dir_ok b row col color d = true) :
    opp_run b (-color) row col d.1 d.2 ≠ [] := by
  unfold dir_ok at h
  simp only [Bool.and_eq_true, Bool.not_eq_true'] at h
  exact (isEmpty_false_iff _).mp h.2

theorem dir_flips_ne_nil_iff (b : Board) (row col color : Int) (d : Int × Int) :
    dir_flips b row col color d ≠ [] ↔ dir_ok b row col color d = true := by
  unfold dir_flips
  by_cases h : dir_ok b row col color d = true
  · simp only [h, if_true]
    exact ⟨fun _ => trivial, fun _ => dir_ok_run_ne b row col color d h⟩
  · simp [h]

theorem stones_ne_nil_iff (b : Board) (row col color : Int) :
    get_stones_to_flip b row col color ≠ [] ↔
      ∃ d ∈ DIRECTIONS, dir_ok b row col color d = true := by
  constructor
  · intro h
    by_contra hall
    push_neg at hall
    apply h
    rw [get_stones_eq_flatten]
    rw [List.flatten_eq_nil_iff]
    intro l hl
    rcases List.mem_map.mp hl with ⟨d, hd, rfl⟩
    have hne := hall d hd
    unfold dir_flips
    simp [hne]
  · rintro ⟨d, hd, hok⟩ hnil
    have hmem : dir_flips b row col color d ∈
        DIRECTIONS.map fun d2 => dir_flips b row col color d2 :=
      List.mem_map_of_mem _ hd
    have : dir_flips b row col color d = [] := by
      rw [get_stones_eq_flatten] at hnil
      exact List.flatten_eq_nil_iff.mp hnil _ hmem
    exact (dir_flips_ne_nil_iff b row col color d).mpr hok this

theorem can_flip_iff (b : Board) (row col color : Int) :
    can_flip b row col color = true ↔
      b row col = EMPTY ∧ get_stones_to_flip b row col color ≠ [] := by
  unfold can_flip
  by_cases hE : b row col = EMPTY
  · simp [hE, List.length_pos]
  · simp [hE, beq_iff_eq]

theorem nu_can_flip_iff (b : Board) (x y color : Int) :
    nu_can_flip b x y color = true ↔
      b x y = EMPTY ∧ ∃ d ∈ DIRECTIONS, dir_ok b x y color d = true := by
  unfold nu_can_flip
  by_cases hE : b x y = EMPTY
  · simp [hE, List.any_eq_true]
  · simp [hE, beq_iff_eq]

theorem can_flip_eq_nu (b : Board) (row col color : Int) :
    can_flip b row col color = nu_can_flip b row col color := by
  by_cases h : can_flip b row col color = true
  · rw [h]
    symm
    rw [nu_can_flip_iff]
    rcases (can_flip_iff b row col color).mp h with ⟨hE, hne⟩
    exact ⟨hE, (stones_ne_nil_iff b row col color).mp hne⟩
  · rw [Bool.eq_false_iff.mpr h]
    symm
    rw [Bool.eq_false_iff]
    intro hnu
    apply h
    rw [can_flip_iff]
    rcases (nu_can_flip_iff b row col color).mp hnu with ⟨hE, hex⟩
    exact ⟨hE, (stones_ne_nil_iff b row col color).mpr hex⟩

theorem ray_bound (row col : Int) (d : Int × Int) (hd : d ∈ DIRECTIONS) (n : Nat)
    (hrow0 : 0 ≤ row) (hrow8 : row < 8) (hcol0 : 0 ≤ col) (hcol8 : col < 8)
    (h : is_on_board (rayPos row col d.1 d.2 n).1 (rayPos row col d.1 d.2 n).2 = true) :
    n ≤ 7 := by
  have hd8 : d = ((0 : Int), (1 : Int)) ∨ d = (1, 0) ∨ d = (0, -1) ∨ d = (-1, 0) ∨
      d = (1, 1) ∨ d = (1, -1) ∨ d = (-1, 1) ∨ d = (-1, -1) := by
    simpa [DIRECTIONS] using hd
  rcases hd8 with rfl | rfl | rfl | rfl | rfl | rfl | rfl | rfl <;>
    · simp only [rayPos, is_on_board, decide_eq_true_eq] at h
      omega

theorem ray_ok_iff (b : Board) (opponent row col d_row d_col : Int) (k : Nat) :
    ray_ok b opponent row col d_row d_col k = true ↔
      is_on_board (rayPos row col d_row d_col k).1 (rayPos row col d_row d_col k).2 = true ∧
      b (rayPos row col d_row d_col k).1 (rayPos row col d_row d_col k).2 = opponent := by
  unfold ray_ok
  simp [Bool.and_eq_true, beq_iff_eq]

theorem dir_ok_iff_spec (b : Board) (row col color : Int) (d : Int × Int)
    (hd : d ∈ DIRECTIONS)
    (hrow0 : 0 ≤ row) (hrow8 : row < 8) (hcol0 : 0 ≤ col) (hcol8 : col < 8)
    (hcolor : color = BLACK ∨ color = WHITE) :
    dir_ok b row col color d = true ↔
      ∃ n : Nat, 1 ≤ n ∧
        (∀ k : Nat, 1 ≤ k → k ≤ n →
          is_on_board (rayPos row col d.1 d.2 k).1 (rayPos row col d.1 d.2 k).2 = true ∧
          b (rayPos row col d.1 d.2 k).1 (rayPos row col d.1 d.2 k).2 = -color) ∧
        is_on_board (rayPos row col d.1 d.2 (n + 1)).1 (rayPos row col d.1 d.2 (n + 1)).2 =
          true ∧
        b (rayPos row col d.1 d.2 (n + 1)).1 (rayPos row col d.1 d.2 (n + 1)).2 = color := by
  constructor
  · intro h
    have hrun := dir_ok_run_ne b row col color d h
    have hlen : 1 ≤ run_len b (-color) row col d.1 d.2 := by
      have := (opp_run_length b (-color) row col d.1 d.2) ▸ List.length_pos.mpr hrun
      omega
    refine ⟨run_len b (-color) row col d.1 d.2, hlen, ?_, ?_, ?_⟩
    · intro k hk1 hkn
      have hok := run_len_ok b (-color) row col d.1 d.2 (k - 1) (by omega)
      have heq : 1 + (k - 1) = k := by omega
      rw [heq] at hok
      exact (ray_ok_iff b (-color) row col d.1 d.2 k).mp hok
    · unfold dir_ok at h
      simp only [Bool.and_eq_true, Bool.not_eq_true'] at h
      exact h.1.1
    · unfold dir_ok at h
      simp only [Bool.and_eq_true, Bool.not_eq_true', beq_iff_eq] at h
      exact h.1.2
  · rintro ⟨n, hn1, hrunp, htob, hteq⟩
    have hn7 : n + 1 ≤ 7 :=
      ray_bound row col d hd (n + 1) hrow0 hrow8 hcol0 hcol8 htob
    have hge : n ≤ run_len b (-color) row col d.1 d.2 := by
      refine run_len_aux_ge b (-color) row col d.1 d.2 8 1 n (fun j hj => ?_) (by omega)
      have hk := hrunp (j + 1) (by omega) (by omega)
      have heq : 1 + j = j + 1 := by omega
      rw [heq]
      exact (ray_ok_iff b (-color) row col d.1 d.2 (j + 1)).mpr hk
    have hle : run_len b (-color) row col d.1 d.2 ≤ n := by
      by_contra hgt
      push_neg at hgt
      have hok := run_len_ok b (-color) row col d.1 d.2 n hgt
      have heq : 1 + n = n + 1 := by omega
      rw [heq] at hok
      have := ((ray_ok_iff b (-color) row col d.1 d.2 (n + 1)).mp hok).2
      rw [hteq] at this
      rcases hcolor with rfl | rfl
      · simp [BLACK] at this
      · simp [WHITE] at this
    have hrl : run_len b (-color) row col d.1 d.2 = n := Nat.le_antisymm hle hge
    unfold dir_ok
    simp only [Bool.and_eq_true, Bool.not_eq_true', beq_iff_eq, hrl]
    refine ⟨⟨htob, hteq⟩, ?_⟩
    rw [isEmpty_false_iff]
    intro hnil
    have hlen := opp_run_length b (-color) row col d.1 d.2
    rw [hnil] at hlen
    simp only [List.length_nil] at hlen
    omega

theorem can_flip_iff_legality (b : Board) (row col color : Int)
    (hrow0 : 0 ≤ row) (hrow8 : row < 8) (hcol0 : 0 ≤ col) (hcol8 : col < 8)
    (hcolor : color = BLACK ∨ color = WHITE) :
    can_flip b row col color = true ↔
      b row col = EMPTY ∧ LegalitySpec b row col color := by
  rw [can_flip_iff]
  refine and_congr_right fun _ => ?_
  rw [stones_ne_nil_iff]
  unfold LegalitySpec
  constructor
  · rintro ⟨d, hd, hok⟩
    exact ⟨d, hd,
      (dir_ok_iff_spec b row col color d hd hrow0 hrow8 hcol0 hcol8 hcolor).mp hok⟩
  · rintro ⟨d, hd, hspec⟩
    exact ⟨d, hd,
      (dir_ok_iff_spec b row col color d hd hrow0 hrow8 hcol0 hcol8 hcolor).mpr hspec⟩

/-! ### Enumeration of legal moves -/

theorem nested_loop_filter {β : Type} (q : β → Bool) (g : Nat → Nat → β) (n m : Nat) :
    ((List.range n).foldl (fun acc (x : Nat) =>
      (List.range m).foldl (fun acc2 (y : Nat) =>
        if q (g x y) then acc2 ++ [g x y] else acc2) acc) []) =
    ((List.range n).flatMap fun x => (List.range m).map (g x)).filter q := by
  have hinner : (fun (acc : List β) (x : Nat) =>
      (List.range m).foldl (fun acc2 (y : Nat) =>
        if q (g x y) then acc2 ++ [g x y] else acc2) acc) =
      fun acc x => acc ++ ((List.range m).filter fun y => q (g x y)).map (g x) := by
    funext acc x
    exact foldl_guard_append (List.range m) (fun y => q (g x y)) (g x) acc
  rw [hinner]
  rw [foldl_append_flatten (List.range n)
    (fun x => ((List.range m).filter fun y => q (g x y)).map (g x)) []]
  rw [List.nil_append, List.flatMap_def, filter_flatten, List.map_map]
  congr 1
  refine List.map_congr_left fun x _ => ?_
  simp only [Function.comp]
  exact (filter_over_map q (g x) (List.range m)).symm

theorem nested_flatmap_filter {β : Type} (q : β → Bool) (g : Nat → Nat → β) (n m : Nat) :
    ((List.range n).flatMap fun (x : Nat) => (List.range m).flatMap fun (y : Nat) =>
      if q (g x y) then [g x y] else []) =
    ((List.range n).flatMap fun x => (List.range m).map (g x)).filter q := by
  rw [List.flatMap_def, List.flatMap_def, filter_flatten, List.map_map]
  congr 1
  refine List.map_congr_left fun x _ => ?_
  simp only [Function.comp]
  rw [List.flatMap_def, flatten_guard_singleton]
  exact (filter_over_map q (g x) (List.range m)).symm

theorem find_valid_eq_filter (b : Board) (color : Int) :
    find_valid_positions b color =
      all_cells.filter fun p => can_flip b p.1 p.2 color :=
  nested_loop_filter (fun (p : Int × Int) => can_flip b p.1 p.2 color)
    (fun r c => ((r : Int), (c : Int))) 8 8

theorem get_valid_moves_eq_filter (b : Board) (color : Int) :
    get_valid_moves b color =
      all_cells.filter fun p => nu_can_flip b p.1 p.2 color :=
  nested_flatmap_filter (fun (p : Int × Int) => nu_can_flip b p.1 p.2 color)
    (fun x y => ((x : Int), (y : Int))) 8 8

theorem find_valid_eq_get_valid (b : Board) (color : Int) :
    find_valid_positions b color = get_valid_moves b color := by
  rw [find_valid_eq_filter, get_valid_moves_eq_filter]
  refine List.filter_congr fun p _ => ?_
  exact can_flip_eq_nu b p.1 p.2 color

theorem mem_all_cells (p : Int × Int) :
    p ∈ all_cells ↔ 0 ≤ p.1 ∧ p.1 < 8 ∧ 0 ≤ p.2 ∧ p.2 < 8 := by
  unfold all_cells
  simp only [List.mem_flatMap, List.mem_map, List.mem_range]
  constructor
  · rintro ⟨r, hr, c, hc, rfl⟩
    refine ⟨?_, ?_, ?_, ?_⟩ <;> simp <;> omega
  · rintro ⟨h1, h2, h3, h4⟩
    refine ⟨p.1.toNat, by omega, p.2.toNat, by omega, ?_⟩
    cases p with
    | mk a c =>
        simp only at h1 h2 h3 h4
        simp only [Prod.mk.injEq]
        omega

theorem mem_find_valid (b : Board) (color : Int) (p : Int × Int) :
    p ∈ find_valid_positions b color ↔
      (0 ≤ p.1 ∧ p.1 < 8 ∧ 0 ≤ p.2 ∧ p.2 < 8) ∧ can_flip b p.1 p.2 color = true := by
  rw [find_valid_eq_filter, List.mem_filter, mem_all_cells]

/-! ### Claim theorems -/

/-- Claim C1: a cell is a legal move for a colour exactly when it is
currently empty and its flip set -- the union over the eight directions of
the contiguous run of opponent stones terminated by a same-coloured stone
before leaving the board -- is non-empty, and `find_valid_positions`
enumerates the 64 cells in row-major order, keeping exactly those where
`can_flip` holds. -/
theorem C1_legal_move_characterization (b : Board) (row col color : Int)
    (hrow0 : 0 ≤ row) (hrow8 : row < 8) (hcol0 : 0 ≤ col) (hcol8 : col < 8)
    (hcolor : color = BLACK ∨ color = WHITE) :
    (can_flip b row col color = true ↔
      b row col = EMPTY ∧ LegalitySpec b row col color) ∧
    find_valid_positions b color =
      all_cells.filter fun p => can_flip b p.1 p.2 color :=
  ⟨can_flip_iff_legality b row col color hrow0 hrow8 hcol0 hcol8 hcolor,
   find_valid_eq_filter b color⟩

theorem C1_legal_move_characterization_witness :
    ((0 : Int) ≤ 2 ∧ (2 : Int) < 8 ∧ (0 : Int) ≤ 3 ∧ (3 : Int) < 8 ∧
      (BLACK = BLACK ∨ BLACK = WHITE)) ∧
    ((can_flip create_board 2 3 BLACK = true ↔
      create_board 2 3 = EMPTY ∧ LegalitySpec create_board 2 3 BLACK) ∧
    find_valid_positions create_board BLACK =
      all_cells.filter fun p => can_flip create_board p.1 p.2 BLACK) :=
  ⟨⟨by decide, by decide, by decide, by decide, Or.inl rfl⟩,
   C1_legal_move_characterization create_board 2 3 BLACK
     (by decide) (by decide) (by decide) (by decide) (Or.inl rfl)⟩

/-- Claim C3: when `place_and_flip_stones` succeeds, the played cell and
every cell of its flip set hold the mover's colour afterwards, and every
cell outside the flip set plus the played cell keeps exactly its previous
content. -/
theorem C3_apply_move_frame (b : Board) (row col color : Int)
    (h : (place_and_flip_stones b row col color).1 = true) :
    (place_and_flip_stones b row col color).2 row col = color ∧
    (∀ p ∈ get_stones_to_flip b row col color,
      (place_and_flip_stones b row col color).2 p.1 p.2 = color) ∧
    ∀ r c, (r, c) ∉ get_stones_to_flip b row col color → ¬(r = row ∧ c = col) →
      (place_and_flip_stones b row col color).2 r c = b r c := by
  have hne : get_stones_to_flip b row col color ≠ [] := by
    rw [place_fst, Bool.not_eq_true'] at h
    exact (isEmpty_false_iff _).mp h
  refine ⟨?_, ?_, ?_⟩
  · rw [place_snd_eval b row col color hne]
    simp
  · intro p hp
    rw [place_snd_eval b row col color hne]
    have hp2 : (p.1, p.2) ∈ get_stones_to_flip b row col color := by
      cases p
      exact hp
    simp [hp2]
  · intro r c hmem horig
    rw [place_snd_eval b row col color hne]
    simp [hmem, horig]

theorem C3_apply_move_frame_witness :
    (place_and_flip_stones create_board 2 3 BLACK).1 = true ∧
    ((place_and_flip_stones create_board 2 3 BLACK).2 2 3 = BLACK ∧
    (∀ p ∈ get_stones_to_flip create_board 2 3 BLACK,
      (place_and_flip_stones create_board 2 3 BLACK).2 p.1 p.2 = BLACK) ∧
    ∀ r c, (r, c) ∉ get_stones_to_flip create_board 2 3 BLACK → ¬(r = 2 ∧ c = 3) →
      (place_and_flip_stones create_board 2 3 BLACK).2 r c = create_board r c) :=
  ⟨by decide, C3_apply_move_frame create_board 2 3 BLACK (by decide)⟩

/-! ### Equivalence of `place_and_flip_stones` and `make_move` -/

theorem opp_run_congr (b1 b2 : Board) (opponent row col d_row d_col : Int)
    (h : ∀ k : Nat, 1 ≤ k → k ≤ 8 →
      b1 (rayPos row col d_row d_col k).1 (rayPos row col d_row d_col k).2 =
        b2 (rayPos row col d_row d_col k).1 (rayPos row col d_row d_col k).2) :
    opp_run b1 opponent row col d_row d_col = opp_run b2 opponent row col d_row d_col := by
  unfold opp_run
  rw [run_len_congr b1 b2 opponent row col d_row d_col h]

theorem mem_dir_flips_ray (b : Board) (row col color : Int) (d : Int × Int) (p : Int × Int)
    (hp : p ∈ dir_flips b row col color d) :
    ∃ k : Nat, 1 ≤ k ∧ k ≤ 8 ∧ p = rayPos row col d.1 d.2 k := by
  unfold dir_flips at hp
  by_cases hok : dir_ok b row col color d = true
  · rw [if_pos hok] at hp
    rcases (mem_opp_run b (-color) row col d.1 d.2 p).mp hp with ⟨i, hi, rfl⟩
    have h8 := run_len_le_eight b (-color) row col d.1 d.2
    exact ⟨i + 1, by omega, by omega, rfl⟩
  · rw [if_neg hok] at hp
    simp at hp

theorem mem_get_stones (b : Board) (row col color : Int) (p : Int × Int) :
    p ∈ get_stones_to_flip b row col color ↔
      ∃ d ∈ DIRECTIONS, p ∈ dir_flips b row col color d := by
  rw [get_stones_eq_flatten]
  simp only [List.mem_flatten, List.mem_map]
  constructor
  · rintro ⟨l, ⟨d, hd, rfl⟩, hpl⟩
    exact ⟨d, hd, hpl⟩
  · rintro ⟨d, hd, hpd⟩
    exact ⟨dir_flips b row col color d, ⟨d, hd, rfl⟩, hpd⟩

theorem mm_step_eval (b acc : Board) (x y color : Int) (d : Int × Int)
    (hray : ∀ k : Nat, 1 ≤ k → k ≤ 9 →
      acc (rayPos x y d.1 d.2 k).1 (rayPos x y d.1 d.2 k).2 =
        b (rayPos x y d.1 d.2 k).1 (rayPos x y d.1 d.2 k).2) (r c : Int) :
    mm_step x y color acc d r c =
      if (r, c) ∈ dir_flips b x y color d then color else acc r c := by
  have hrun : run_len acc (-color) x y d.1 d.2 = run_len b (-color) x y d.1 d.2 :=
    run_len_congr acc b (-color) x y d.1 d.2 (fun k h1 h8 => hray k h1 (by omega))
  have hopp : opp_run acc (-color) x y d.1 d.2 = opp_run b (-color) x y d.1 d.2 :=
    opp_run_congr acc b (-color) x y d.1 d.2 (fun k h1 h8 => hray k h1 (by omega))
  have hq : acc (rayPos x y d.1 d.2 (run_len b (-color) x y d.1 d.2 + 1)).1
      (rayPos x y d.1 d.2 (run_len b (-color) x y d.1 d.2 + 1)).2 =
      b (rayPos x y d.1 d.2 (run_len b (-color) x y d.1 d.2 + 1)).1
        (rayPos x y d.1 d.2 (run_len b (-color) x y d.1 d.2 + 1)).2 := by
    have h8 := run_len_le_eight b (-color) x y d.1 d.2
    exact hray _ (by omega) (by omega)
  unfold mm_step
  rw [hrun, hopp, hq]
  by_cases hc : (is_on_board (rayPos x y d.1 d.2 (run_len b (-color) x y d.1 d.2 + 1)).1
      (rayPos x y d.1 d.2 (run_len b (-color) x y d.1 d.2 + 1)).2 &&
      (b (rayPos x y d.1 d.2 (run_len b (-color) x y d.1 d.2 + 1)).1
        (rayPos x y d.1 d.2 (run_len b (-color) x y d.1 d.2 + 1)).2 == color)) = true
  · rw [if_pos hc, foldl_setCell_eval]
    by_cases hemp : opp_run b (-color) x y d.1 d.2 = []
    · have hokf : dir_ok b x y color d = false := by
        unfold dir_ok
        rw [hemp]
        simp
      unfold dir_flips
      rw [hokf]
      rw [hemp]
      simp
    · have hok : dir_ok b x y color d = true := by
        unfold dir_ok
        rw [hc, (isEmpty_false_iff _).mpr hemp]
        rfl
      unfold dir_flips
      rw [hok]
      simp
  · rw [if_neg hc]
    have hokf : dir_ok b x y color d = false := by
      unfold dir_ok
      rw [Bool.eq_false_iff.mpr hc]
      rfl
    unfold dir_flips
    rw [hokf]
    simp

theorem mm_fold_eval (b : Board) (x y color : Int) :
    ∀ (ds : List (Int × Int)) (acc : Board), ds.Nodup →
      (∀ d ∈ ds, d ∈ DIRECTIONS) →
      (∀ d ∈ ds, ∀ k : Nat, 1 ≤ k → k ≤ 9 →
        acc (rayPos x y d.1 d.2 k).1 (rayPos x y d.1 d.2 k).2 =
          b (rayPos x y d.1 d.2 k).1 (rayPos x y d.1 d.2 k).2) →
      ∀ r c, (ds.foldl (mm_step x y color) acc) r c =
        if ∃ d ∈ ds, (r, c) ∈ dir_flips b x y color d then color else acc r c := by
  intro ds
  induction ds with
  | nil =>
      intro acc _ _ _ r c
      simp
  | cons d rest ih =>
      intro acc hnd hdir hacc r c
      have hrayd := hacc d (List.mem_cons_self d rest)
      have hstep := mm_step_eval b acc x y color d hrayd
      have hacc2 : ∀ d2 ∈ rest, ∀ k : Nat, 1 ≤ k → k ≤ 9 →
          (mm_step x y color acc d) (rayPos x y d2.1 d2.2 k).1 (rayPos x y d2.1 d2.2 k).2 =
            b (rayPos x y d2.1 d2.2 k).1 (rayPos x y d2.1 d2.2 k).2 := by
        intro d2 hd2 k hk1 hk9
        rw [hstep (rayPos x y d2.1 d2.2 k).1 (rayPos x y d2.1 d2.2 k).2]
        have hne : d ≠ d2 := by
          intro hEq
          rw [hEq] at hnd
          exact (List.nodup_cons.mp hnd).1 hd2
        have hnotin : ((rayPos x y d2.1 d2.2 k).1, (rayPos x y d2.1 d2.2 k).2) ∉
            dir_flips b x y color d := by
          intro hin
          rcases mem_dir_flips_ray b x y color d _ hin with ⟨j, hj1, hj8, hjeq⟩
          exact ray_disjoint x y d d2 (hdir d (List.mem_cons_self d rest))
            (hdir d2 (List.mem_cons_of_mem d hd2)) hne j k hj1 hk1 hjeq.symm
        rw [if_neg hnotin]
        exact hacc d2 (List.mem_cons_of_mem d hd2) k hk1 hk9
      rw [List.foldl_cons]
      rw [ih (mm_step x y color acc d) (List.nodup_cons.mp hnd).2
          (fun d2 hd2 => hdir d2 (List.mem_cons_of_mem d hd2)) hacc2 r c]
      rw [hstep r c]
      by_cases h1 : ∃ d2 ∈ rest, (r, c) ∈ dir_flips b x y color d2
      · have hcons : ∃ d2 ∈ d :: rest, (r, c) ∈ dir_flips b x y color d2 := by
          rcases h1 with ⟨d2, hd2, hmem⟩
          exact ⟨d2, List.mem_cons_of_mem d hd2, hmem⟩
        rw [if_pos h1, if_pos hcons]
      · by_cases h2 : (r, c) ∈ dir_flips b x y color d
        · have hcons : ∃ d2 ∈ d :: rest, (r, c) ∈ dir_flips b x y color d2 :=
            ⟨d, List.mem_cons_self d rest, h2⟩
          rw [if_neg h1, if_pos h2, if_pos hcons]
        · have hcons : ¬∃ d2 ∈ d :: rest, (r, c) ∈ dir_flips b x y color d2 := by
            rintro ⟨d2, hd2, hmem⟩
            rcases List.mem_cons.mp hd2 with rfl | hd2r
            · exact h2 hmem
            · exact h1 ⟨d2, hd2r, hmem⟩
          rw [if_neg h1, if_neg h2, if_neg hcons]

theorem make_move_fst (b : Board) (x y color : Int) :
    (make_move b x y color).1 = nu_can_flip b x y color := by
  unfold make_move
  by_cases h : nu_can_flip b x y color = true
  · rw [h]
    simp
  · rw [Bool.eq_false_iff.mpr h]
    simp

theorem make_move_snd_fail (b : Board) (x y color : Int)
    (h : nu_can_flip b x y color = false) :
    (make_move b x y color).2 = b := by
  unfold make_move
  rw [h]
  simp

theorem make_move_snd_eval (b : Board) (x y color : Int)
    (h : nu_can_flip b x y color = true) (r c : Int) :
    (make_move b x y color).2 r c =
      if (r, c) ∈ get_stones_to_flip b x y color ∨ (r = x ∧ c = y) then color
      else b r c := by
  unfold make_move
  rw [h]
  simp only [Bool.not_true, Bool.false_eq_true, if_false]
  have hbase : ∀ d ∈ DIRECTIONS, ∀ k : Nat, 1 ≤ k → k ≤ 9 →
      (setCell b x y color) (rayPos x y d.1 d.2 k).1 (rayPos x y d.1 d.2 k).2 =
        b (rayPos x y d.1 d.2 k).1 (rayPos x y d.1 d.2 k).2 := by
    intro d hd k hk1 _
    unfold setCell
    have hne := ray_ne_origin x y d hd k hk1
    have hcond : ¬((rayPos x y d.1 d.2 k).1 = x ∧ (rayPos x y d.1 d.2 k).2 = y) := by
      intro hc
      apply hne
      cases hray : rayPos x y d.1 d.2 k with
      | mk a e =>
          rw [hray] at hc
          simp only at hc
          simp [Prod.ext_iff, hc.1, hc.2]
    rw [if_neg hcond]
  have hnodup : DIRECTIONS.Nodup := by decide
  rw [mm_fold_eval b x y color DIRECTIONS (setCell b x y color) hnodup
      (fun d hd => hd) hbase r c]
  by_cases hm : (r, c) ∈ get_stones_to_flip b x y color
  · have hex : ∃ d ∈ DIRECTIONS, (r, c) ∈ dir_flips b x y color d :=
      (mem_get_stones b x y color (r, c)).mp hm
    rw [if_pos hex, if_pos (Or.inl hm)]
  · have hex : ¬∃ d ∈ DIRECTIONS, (r, c) ∈ dir_flips b x y color d := fun hex =>
      hm ((mem_get_stones b x y color (r, c)).mpr hex)
    rw [if_neg hex]
    unfold setCell
    by_cases horig : r = x ∧ c = y
    · rw [if_pos horig, if_pos (Or.inr horig)]
    · have : ¬((r, c) ∈ get_stones_to_flip b x y color ∨ (r = x ∧ c = y)) := by
        rintro (hc | hc)
        · exact hm hc
        · exact horig hc
      rw [if_neg horig, if_neg this]

theorem nu_can_flip_false_of_stones_nil (b : Board) (x y color : Int)
    (hs : get_stones_to_flip b x y color = []) :
    nu_can_flip b x y color = false := by
  rw [Bool.eq_false_iff]
  intro ht
  rcases (nu_can_flip_iff b x y color).mp ht with ⟨_, hex⟩
  exact (stones_ne_nil_iff b x y color).mpr hex hs

/-- Claim C9 (amended): on an empty board cell the class-based
`place_and_flip_stones` of `reversi.py` and the function-style `make_move`
of `not_use_numpy.py` return the same success flag and produce pointwise
identical boards, and the two legal-move computations agree on every board,
colour and cell.  (On occupied cells the variants differ; see the
counterexample.) -/
theorem C9_variants_agree (b : Board) (x y color : Int)
    (_hx0 : 0 ≤ x) (_hx8 : x < 8) (_hy0 : 0 ≤ y) (_hy8 : y < 8)
    (hE : b x y = EMPTY) :
    (place_and_flip_stones b x y color).1 = (make_move b x y color).1 ∧
    (∀ r c : Int,
      (place_and_flip_stones b x y color).2 r c = (make_move b x y color).2 r c) ∧
    (∀ r c color2 : Int, can_flip b r c color2 = nu_can_flip b r c color2) ∧
    (∀ color2 : Int, find_valid_positions b color2 = get_valid_moves b color2) := by
  have hflag : (place_and_flip_stones b x y color).1 = (make_move b x y color).1 := by
    rw [place_fst, make_move_fst]
    by_cases hs : get_stones_to_flip b x y color = []
    · rw [hs, nu_can_flip_false_of_stones_nil b x y color hs]
      rfl
    · have hnu : nu_can_flip b x y color = true :=
        (nu_can_flip_iff b x y color).mpr ⟨hE, (stones_ne_nil_iff b x y color).mp hs⟩
      rw [hnu, (isEmpty_false_iff _).mpr hs]
      rfl
  refine ⟨hflag, ?_, fun r c color2 => can_flip_eq_nu b r c color2,
    fun color2 => find_valid_eq_get_valid b color2⟩
  intro r c
  by_cases hs : get_stones_to_flip b x y color = []
  · rw [place_snd_fail b x y color hs,
      make_move_snd_fail b x y color (nu_can_flip_false_of_stones_nil b x y color hs)]
  · have hnu : nu_can_flip b x y color = true :=
      (nu_can_flip_iff b x y color).mpr ⟨hE, (stones_ne_nil_iff b x y color).mp hs⟩
    rw [place_snd_eval b x y color hs r c, make_move_snd_eval b x y color hnu r c]

theorem C9_variants_agree_witness :
    ((0 : Int) ≤ 2 ∧ (2 : Int) < 8 ∧ (0 : Int) ≤ 3 ∧ (3 : Int) < 8 ∧
      create_board 2 3 = EMPTY) ∧
    ((place_and_flip_stones create_board 2 3 BLACK).1 =
        (make_move create_board 2 3 BLACK).1 ∧
     (∀ r c : Int, (place_and_flip_stones create_board 2 3 BLACK).2 r c =
        (make_move create_board 2 3 BLACK).2 r c) ∧
     (∀ r c color2 : Int,
        can_flip create_board r c color2 = nu_can_flip create_board r c color2) ∧
     (∀ color2 : Int,
        find_valid_positions create_board color2 = get_valid_moves create_board color2)) :=
  ⟨⟨by decide, by decide, by decide, by decide, by decide⟩,
   C9_variants_agree create_board 2 3 BLACK (by decide) (by decide) (by decide)
     (by decide) (by decide)⟩

/-- Claim C9 counterexample: at the occupied cell `(0,0)` of `bC2` the two
variants disagree -- `place_and_flip_stones` succeeds and flips `(0,1)`,
while `make_move` fails and leaves the board unchanged. -/
theorem C9_variants_differ :
    (place_and_flip_stones bC2 0 0 BLACK).1 = true ∧
    (make_move bC2 0 0 BLACK).1 = false ∧
    (place_and_flip_stones bC2 0 0 BLACK).2 0 1 = BLACK ∧
    (make_move bC2 0 0 BLACK).2 0 1 = WHITE := by decide

/-- Claim C2: the cell `(0,0)` of `bC2` is occupied, hence not a legal move,
yet `place_and_flip_stones` succeeds there and mutates the board, because
the source checks only that the flip set is non-empty and never that the
target cell is empty. -/
theorem C2_place_succeeds_on_occupied :
    bC2 0 0 = BLACK ∧
    can_flip bC2 0 0 BLACK = false ∧
    (0, 0) ∉ find_valid_positions bC2 BLACK ∧
    (place_and_flip_stones bC2 0 0 BLACK).1 = true ∧
    (place_and_flip_stones bC2 0 0 BLACK).2 0 1 = BLACK ∧
    bC2 0 1 = WHITE := by decide

/-- Claim C4: `bPass8` is reached from the initial board by eight legal
alternating moves (each move passes `can_flip`, and each intermediate board
is exactly what `place_and_flip_stones` produces).  There black must pass
-- its own `get_valid_positions` check returns no move and leaves the board
unchanged -- but the engine's double-pass check then invokes the white
opponent's `get_valid_positions`, which selects AND applies white's move
`(2,4)`: the board is mutated during the forced-pass transition (the cell
`(2,4)` becomes white and black's stone at `(2,3)` is flipped) even though
the branch continues the game rather than ending it. -/
theorem C4_pass_check_plays_a_move :
    (can_flip create_board 2 3 BLACK = true ∧
      (place_and_flip_stones create_board 2 3 BLACK).2 = bPass1) ∧
    (can_flip bPass1 2 2 WHITE = true ∧
      (place_and_flip_stones bPass1 2 2 WHITE).2 = bPass2) ∧
    (can_flip bPass2 2 1 BLACK = true ∧
      (place_and_flip_stones bPass2 2 1 BLACK).2 = bPass3) ∧
    (can_flip bPass3 1 1 WHITE = true ∧
      (place_and_flip_stones bPass3 1 1 WHITE).2 = bPass4) ∧
    (can_flip bPass4 4 5 BLACK = true ∧
      (place_and_flip_stones bPass4 4 5 BLACK).2 = bPass5) ∧
    (can_flip bPass5 2 0 WHITE = true ∧
      (place_and_flip_stones bPass5 2 0 WHITE).2 = bPass6) ∧
    (can_flip bPass6 0 0 BLACK = true ∧
      (place_and_flip_stones bPass6 0 0 BLACK).2 = bPass7) ∧
    (can_flip bPass7 0 2 WHITE = true ∧
      (place_and_flip_stones bPass7 0 2 WHITE).2 = bPass8) ∧
    find_valid_positions bPass8 BLACK = [] ∧
    (ai_get_valid_positions (matrix_at hard_priority_matrix) pick_first BLACK bPass8).1 =
      none ∧
    (ai_get_valid_positions (matrix_at hard_priority_matrix) pick_first BLACK
      bPass8).2 2 4 = bPass8 2 4 ∧
    find_valid_positions bPass8 WHITE = [(2, 4), (5, 5)] ∧
    (play_pass_branch (matrix_at hard_priority_matrix) pick_first BLACK bPass8).1 =
      false ∧
    (play_pass_branch (matrix_at hard_priority_matrix) pick_first BLACK
      bPass8).2 2 4 = WHITE ∧
    (play_pass_branch (matrix_at hard_priority_matrix) pick_first BLACK
      bPass8).2 2 3 = WHITE ∧
    bPass8 2 4 = EMPTY ∧ bPass8 2 3 = BLACK :=
  ⟨⟨by decide, rfl⟩, ⟨by decide, rfl⟩, ⟨by decide, rfl⟩, ⟨by decide, rfl⟩,
   ⟨by decide, rfl⟩, ⟨by decide, rfl⟩, ⟨by decide, rfl⟩, ⟨by decide, rfl⟩,
   by decide, by decide, by decide, by decide, by decide, by decide, by decide,
   by decide, by decide⟩

/-- Claim C5: `bPass2` is reached from the initial board by the two legal
moves black `(2,3)` and white `(2,2)`; on it `place_and_flip_stones`
succeeds at the occupied cell `(2,3)` without reducing the number of empty
cells, refuting the invariant that every successful move strictly decreases
the empty count (and with it the claimed 60-move bound, since such moves
can repeat). -/
theorem C5_successful_move_keeps_empty_count :
    (can_flip create_board 2 3 BLACK = true ∧
      (place_and_flip_stones create_board 2 3 BLACK).2 = bPass1) ∧
    (can_flip bPass1 2 2 WHITE = true ∧
      (place_and_flip_stones bPass1 2 2 WHITE).2 = bPass2) ∧
    can_flip bPass2 2 3 BLACK = false ∧
    (place_and_flip_stones bPass2 2 3 BLACK).1 = true ∧
    count_color (place_and_flip_stones bPass2 2 3 BLACK).2 EMPTY =
      count_color bPass2 EMPTY :=
  ⟨⟨by decide, rfl⟩, ⟨by decide, rfl⟩, by decide, by decide, by decide⟩

/-- Claim C6: the AI move source itself mutates the board: calling
`AIPlayer.get_valid_positions` (hard matrix, black) on the initial board
returns the selected cell `(2,3)` and has already applied the move. -/
theorem C6_move_source_mutates :
    (ai_get_valid_positions (matrix_at hard_priority_matrix) pick_first BLACK
      create_board).1 = some (2, 3) ∧
    (ai_get_valid_positions (matrix_at hard_priority_matrix) pick_first BLACK
      create_board).2 2 3 = BLACK ∧
    create_board 2 3 = EMPTY := by decide

/-! ### The AI priority fold -/

theorem ai_fold_spec (pm : Int → Int → Int) :
    ∀ (l : List (Int × Int)) (st : List (Int × Int) × Int),
      (∀ x ∈ st.1, pm x.1 x.2 = st.2) →
      (∀ x ∈ (l.foldl (ai_step pm) st).1, x ∈ st.1 ∨ x ∈ l) ∧
      (∀ x ∈ (l.foldl (ai_step pm) st).1, pm x.1 x.2 = (l.foldl (ai_step pm) st).2) ∧
      (∀ x ∈ l, pm x.1 x.2 ≤ (l.foldl (ai_step pm) st).2) ∧
      st.2 ≤ (l.foldl (ai_step pm) st).2 ∧
      (st.1 ≠ [] → (l.foldl (ai_step pm) st).1 ≠ []) ∧
      (∀ x ∈ l, st.2 < pm x.1 x.2 → (l.foldl (ai_step pm) st).1 ≠ []) := by
  intro l
  induction l with
  | nil =>
      intro st hst
      refine ⟨fun z hz => Or.inl hz, hst, fun z hz => absurd hz (List.not_mem_nil z),
        le_refl _, fun h => h, fun z hz => absurd hz (List.not_mem_nil z)⟩
  | cons x xs ih =>
      intro st hst
      rw [List.foldl_cons]
      by_cases h1 : st.2 < pm x.1 x.2
      · have hstep : ai_step pm st x = ([x], pm x.1 x.2) := by
          unfold ai_step
          rw [if_pos h1]
        rw [hstep]
        have hst2 : ∀ z ∈ [x], pm z.1 z.2 = ([x], pm x.1 x.2).2 := by
          intro z hz
          rcases List.mem_singleton.mp hz with rfl
          rfl
        rcases ih ([x], pm x.1 x.2) hst2 with ⟨ihA, ihB, ihC, ihD, ihE, _⟩
        have hres_ne : (xs.foldl (ai_step pm) ([x], pm x.1 x.2)).1 ≠ [] := by
          apply ihE
          simp
        refine ⟨?_, ihB, ?_, le_trans (le_of_lt h1) ihD, fun _ => hres_ne,
          fun _ _ _ => hres_ne⟩
        · intro z hz
          rcases ihA z hz with hz1 | hz2
          · rcases List.mem_singleton.mp hz1 with rfl
            exact Or.inr (List.mem_cons_self _ _)
          · exact Or.inr (List.mem_cons_of_mem _ hz2)
        · intro z hz
          rcases List.mem_cons.mp hz with rfl | hz2
          · exact ihD
          · exact ihC z hz2
      · by_cases h2 : pm x.1 x.2 = st.2
        · have hstep : ai_step pm st x = (st.1 ++ [x], st.2) := by
            unfold ai_step
            rw [if_neg h1, if_pos h2]
          rw [hstep]
          have hst2 : ∀ z ∈ st.1 ++ [x], pm z.1 z.2 = (st.1 ++ [x], st.2).2 := by
            intro z hz
            rcases List.mem_append.mp hz with hz1 | hz2
            · exact hst z hz1
            · rcases List.mem_singleton.mp hz2 with rfl
              exact h2
          rcases ih (st.1 ++ [x], st.2) hst2 with ⟨ihA, ihB, ihC, ihD, ihE, _⟩
          have hres_ne : (xs.foldl (ai_step pm) (st.1 ++ [x], st.2)).1 ≠ [] := by
            apply ihE
            simp
          refine ⟨?_, ihB, ?_, ihD, fun _ => hres_ne, fun _ _ _ => hres_ne⟩
          · intro z hz
            rcases ihA z hz with hz1 | hz2
            · rcases List.mem_append.mp hz1 with hza | hzb
              · exact Or.inl hza
              · rcases List.mem_singleton.mp hzb with rfl
                exact Or.inr (List.mem_cons_self _ _)
            · exact Or.inr (List.mem_cons_of_mem _ hz2)
          · intro z hz
            rcases List.mem_cons.mp hz with rfl | hz2
            · rw [h2]
              exact ihD
            · exact ihC z hz2
        · have hstep : ai_step pm st x = st := by
            unfold ai_step
            rw [if_neg h1, if_neg h2]
          rw [hstep]
          rcases ih st hst with ⟨ihA, ihB, ihC, ihD, ihE, ihF⟩
          refine ⟨?_, ihB, ?_, ihD, ihE, ?_⟩
          · intro z hz
            rcases ihA z hz with hz1 | hz2
            · exact Or.inl hz1
            · exact Or.inr (List.mem_cons_of_mem _ hz2)
          · intro z hz
            rcases List.mem_cons.mp hz with rfl | hz2
            · exact le_trans (not_lt.mp h1) ihD
            · exact ihC z hz2
          · intro z hz hlt
            rcases List.mem_cons.mp hz with rfl | hz2
            · exact absurd hlt h1
            · exact ihF z hz2 hlt

/-- Claim C7: whenever the colour has a legal move, the AI selection -- for
any admissible tie-break function and any priority matrix that is
non-negative on the legal moves (all three matrices in the source are
non-negative everywhere) -- returns a member of the current legal-move list
whose priority equals the maximum priority over that list. -/
theorem C7_ai_selects_max_priority (pm : Int → Int → Int)
    (pick : List (Int × Int) → Int × Int) (b : Board) (color : Int)
    (hpick : ∀ l : List (Int × Int), l ≠ [] → pick l ∈ l)
    (hpm : ∀ p ∈ find_valid_positions b color, 0 ≤ pm p.1 p.2)
    (hne : find_valid_positions b color ≠ []) :
    ∃ sel : Int × Int,
      (ai_get_valid_positions pm pick color b).1 = some sel ∧
      sel ∈ find_valid_positions b color ∧
      ∀ q ∈ find_valid_positions b color, pm q.1 q.2 ≤ pm sel.1 sel.2 := by
  rcases ai_fold_spec pm (find_valid_positions b color) ([], -1)
      (fun z hz => absurd hz (List.not_mem_nil z)) with ⟨ihA, ihB, ihC, _, _, ihF⟩
  obtain ⟨v0, hv0⟩ : ∃ v, v ∈ find_valid_positions b color := by
    cases hval : find_valid_positions b color with
    | nil => exact absurd hval hne
    | cons a t => exact ⟨a, hval ▸ List.mem_cons_self a t⟩
  have hbest_ne : ai_select pm (find_valid_positions b color) ≠ [] := by
    unfold ai_select
    exact ihF v0 hv0 (by have := hpm v0 hv0; omega)
  have hsel_mem : pick (ai_select pm (find_valid_positions b color)) ∈
      ai_select pm (find_valid_positions b color) := hpick _ hbest_ne
  refine ⟨pick (ai_select pm (find_valid_positions b color)), ?_, ?_, ?_⟩
  · unfold ai_get_valid_positions
    simp only [(isEmpty_false_iff _).mpr hne, Bool.false_eq_true, if_false]
  · rcases ihA _ hsel_mem with hz1 | hz2
    · exact absurd hz1 (List.not_mem_nil _)
    · exact hz2
  · intro q hq
    rw [ihB _ hsel_mem]
    exact ihC q hq

theorem C7_ai_selects_max_priority_witness :
    ∃ sel : Int × Int,
      (ai_get_valid_positions (matrix_at hard_priority_matrix) pick_first BLACK
        create_board).1 = some sel ∧
      sel ∈ find_valid_positions create_board BLACK ∧
      ∀ q ∈ find_valid_positions create_board BLACK,
        matrix_at hard_priority_matrix q.1 q.2 ≤
          matrix_at hard_priority_matrix sel.1 sel.2 :=
  C7_ai_selects_max_priority (matrix_at hard_priority_matrix) pick_first create_board BLACK
    (fun l hl => by
      cases l with
      | nil => exact absurd rfl hl
      | cons a t => simp [pick_first])
    (by decide) (by decide)

/-! ### Stone-count conservation -/

theorem well_formed_create : well_formed create_board := by
  unfold well_formed
  decide

theorem well_formed_place (b : Board) (row col color : Int)
    (hb : well_formed b) (hcolor : color = BLACK ∨ color = WHITE) :
    well_formed (place_and_flip_stones b row col color).2 := by
  intro p hp
  by_cases hs : get_stones_to_flip b row col color = []
  · rw [place_snd_fail b row col color hs]
    exact hb p hp
  · rw [place_snd_eval b row col color hs]
    by_cases hcond : (p.1, p.2) ∈ get_stones_to_flip b row col color ∨
        (p.1 = row ∧ p.2 = col)
    · rw [if_pos hcond]
      rcases hcolor with rfl | rfl
      · exact Or.inl rfl
      · exact Or.inr (Or.inl rfl)
    · rw [if_neg hcond]
      exact hb p hp

theorem countP_partition (b : Board) :
    ∀ l : List (Int × Int),
      (∀ p ∈ l, b p.1 p.2 = BLACK ∨ b p.1 p.2 = WHITE ∨ b p.1 p.2 = EMPTY) →
      l.countP (fun p => b p.1 p.2 == BLACK) + l.countP (fun p => b p.1 p.2 == WHITE) +
        l.countP (fun p => b p.1 p.2 == EMPTY) = l.length := by
  intro l
  induction l with
  | nil => intro _; simp
  | cons q t ih =>
      intro h
      have ht := ih (fun p hp => h p (List.mem_cons_of_mem q hp))
      simp only [List.countP_cons, List.length_cons]
      rcases h q (List.mem_cons_self q t) with hv | hv | hv
      · rw [hv, show (BLACK == BLACK) = true by decide,
            show (BLACK == WHITE) = false by decide,
            show (BLACK == EMPTY) = false by decide,
            show (if (true : Bool) = true then (1 : Nat) else 0) = 1 from rfl,
            show (if (false : Bool) = true then (1 : Nat) else 0) = 0 from rfl]
        omega
      · rw [hv, show (WHITE == BLACK) = false by decide,
            show (WHITE == WHITE) = true by decide,
            show (WHITE == EMPTY) = false by decide,
            show (if (true : Bool) = true then (1 : Nat) else 0) = 1 from rfl,
            show (if (false : Bool) = true then (1 : Nat) else 0) = 0 from rfl]
        omega
      · rw [hv, show (EMPTY == BLACK) = false by decide,
            show (EMPTY == WHITE) = false by decide,
            show (EMPTY == EMPTY) = true by decide,
            show (if (true : Bool) = true then (1 : Nat) else 0) = 1 from rfl,
            show (if (false : Bool) = true then (1 : Nat) else 0) = 0 from rfl]
        omega

theorem count_sum_reachable (b : Board) (hb : Reachable b) :
    count_color b BLACK + count_color b WHITE + count_color b EMPTY = 64 := by
  have hwf : well_formed b := by
    induction hb with
    | init => exact well_formed_create
    | step b2 row col color hr hcolor h1 h2 h3 h4 ih =>
        exact well_formed_place b2 row col color ih hcolor
  have hpart := countP_partition b all_cells hwf
  have hlen : all_cells.length = 64 := by decide
  rw [hlen] at hpart
  exact hpart

/-- Claim C8: on every board reachable from the initial board through the
place-and-flip operation, the black count plus the white count plus the
empty count equals 64; the initial board has exactly two stones of each
colour -- white on `(3,3)` and `(4,4)`, black on `(3,4)` and `(4,3)` -- and
60 empty cells. -/
theorem C8_stone_count_invariant :
    (∀ b : Board, Reachable b →
      count_color b BLACK + count_color b WHITE + count_color b EMPTY = 64) ∧
    count_color create_board BLACK = 2 ∧ count_color create_board WHITE = 2 ∧
    count_color create_board EMPTY = 60 ∧
    create_board 3 3 = WHITE ∧ create_board 4 4 = WHITE ∧
    create_board 3 4 = BLACK ∧ create_board 4 3 = BLACK :=
  ⟨fun b hb => count_sum_reachable b hb, by decide, by decide, by decide,
   by decide, by decide, by decide, by decide⟩

theorem C8_stone_count_invariant_witness :
    Reachable (place_and_flip_stones create_board 2 3 BLACK).2 ∧
    count_color (place_and_flip_stones create_board 2 3 BLACK).2 BLACK +
      count_color (place_and_flip_stones create_board 2 3 BLACK).2 WHITE +
      count_color (place_and_flip_stones create_board 2 3 BLACK).2 EMPTY = 64 :=
  have hr : Reachable (place_and_flip_stones create_board 2 3 BLACK).2 :=
    Reachable.step create_board 2 3 BLACK Reachable.init (Or.inl rfl)
      (by decide) (by decide) (by decide) (by decide)
  ⟨hr, C8_stone_count_invariant.1 _ hr⟩

/-- Claim C10 counterexample: the asserted ordering fails on the hard
matrix -- the corner-adjacent cell `(1,1)` has value 0 while the interior
cell `(2,2)` has value 4, so corner-adjacent cells are not strictly above
interior cells. -/
theorem C10_ordering_counterexample : ¬ c10_ordering := by
  unfold c10_ordering
  decide

/-- Claim C10 (amended): in the hard AI matrix every corner cell's value
is strictly greater than every corner-adjacent cell's value, and every
corner-adjacent cell's value is strictly LESS than every interior cell's
value. -/
theorem C10_priority_ordering :
    (∀ co ∈ corner_cells, ∀ a ∈ corner_adjacent_cells,
        matrix_at hard_priority_matrix a.1 a.2 <
          matrix_at hard_priority_matrix co.1 co.2) ∧
    (∀ a ∈ corner_adjacent_cells, ∀ i ∈ interior_cells,
        matrix_at hard_priority_matrix a.1 a.2 <
          matrix_at hard_priority_matrix i.1 i.2) := by
  decide

end Reversi
